import Mathlib

/-!
# yaml-normal: relation classification and graph construction

A shallow embedding of `main.go`: the types `Key`, `Value`, `Relation`,
`ValuesMap`, `GraphNode`, `GraphLink`, `FinalGraph` and the two methods
`ValuesMap.findRelation` and `ValuesMap.buildGraph`.

Go strings are byte sequences, so a string is a list of bytes.  A Go slice
distinguishes the nil slice from an allocated one, so `Slice` keeps that
distinction.  A Go map has pairwise distinct keys and no iteration order: a
`range` over it visits every key exactly once in an order the language leaves
open, so `buildGraph` takes the order of that visit as an argument.

`mainWithError` hands the graph to `json.Marshal`.  The Go library
`encoding/json` is modelled on JSON values, by its documented rules: a nil
slice encodes as `null`, an allocated slice as an array, a struct as an object
keyed by its field tags, and a string is coerced to valid UTF-8.  Decoding
follows `json.Unmarshal`: member names match a field tag up to case folding, a
number must fit 64 bits, and an array decoded into a slice reuses the elements
of its backing array.
-/

namespace YamlNormal

/-- A Go `string`: an immutable sequence of bytes. -/
abbrev GoString := List UInt8

/-- Source: `type Key string`. -/
abbrev Key := GoString

/-- Source: `type Value string`. -/
abbrev Value := GoString

/-- Source: `type Relation int` with its five `iota` constants. -/
inductive Relation where
  | Unknown
  | Unrelated
  | LeftDerivedFromRight
  | RightDerivedFromLeft
  | IsEqualTo
  deriving DecidableEq, Repr

/-- The integer a `Relation` constant stands for (`iota` numbering). -/
def Relation.toInt : Relation → Int
  | .Unknown => 0
  | .Unrelated => 1
  | .LeftDerivedFromRight => 2
  | .RightDerivedFromLeft => 3
  | .IsEqualTo => 4

/-- Go library `strings.Index(s, substr)`, scanning from offset `i`: the index
of the first instance of `substr` in `s`, or `-1` if there is none. -/
def indexFrom (substr : GoString) : GoString → Nat → Int
  | [], i => if substr = [] then (i : Int) else -1
  | c :: rest, i =>
    if substr.isPrefixOf (c :: rest) then (i : Int) else indexFrom substr rest (i + 1)

/-- Go library `strings.Index(s, substr)`. -/
def Index (s substr : GoString) : Int := indexFrom substr s 0

/-- Go library `strings.Contains(s, substr)`: `Index(s, substr) >= 0`. -/
def Contains (s substr : GoString) : Bool := decide (Index s substr ≥ 0)

/-- Source: `type ValuesMap map[Key]Value`.  The entries of a Go map have
pairwise distinct keys. -/
structure ValuesMap where
  entries : List (Key × Value)
  nodup : (entries.map Prod.fst).Nodup

namespace ValuesMap

/-- The keys of the map, in the order the entries are stored. -/
def keys (raw : ValuesMap) : List Key := raw.entries.map Prod.fst

/-- Go `len(raw)`. -/
def len (raw : ValuesMap) : Nat := raw.entries.length

/-- Go `v, ok := raw[key]`. -/
def lookup (raw : ValuesMap) (key : Key) : Option Value :=
  (raw.entries.find? (fun e => e.1 == key)).map Prod.snd

/-- Go `raw[key]`: the value stored under `key`, or the zero value `""` when
the key is absent. -/
def index (raw : ValuesMap) (key : Key) : Value :=
  (raw.lookup key).getD []

/-- Source: `func (raw ValuesMap) findRelation(key1, key2 Key) Relation`. -/
def findRelation (raw : ValuesMap) (key1 key2 : Key) : Relation :=
  let v1 := raw.index key1
  let v2 := raw.index key2
  if v1 = v2 then Relation.IsEqualTo
  else if Contains v1 v2 then Relation.LeftDerivedFromRight
  else if Contains v2 v1 then Relation.RightDerivedFromLeft
  else Relation.Unrelated

/-- An order in which `for key := range raw` may visit the keys: every key
exactly once, in any order. -/
def IsRangeOrder (raw : ValuesMap) (order : List Key) : Prop :=
  order.Perm raw.keys

instance (raw : ValuesMap) (order : List Key) : Decidable (raw.IsRangeOrder order) :=
  inferInstanceAs (Decidable (order.Perm raw.keys))

end ValuesMap

/-- A Go slice value: `nil` is the nil slice (what `var s []T` declares),
`mk elems` an allocated slice holding `elems`. -/
inductive Slice (α : Type) where
  | nil
  | mk (elems : List α)
  deriving DecidableEq, Repr

namespace Slice

/-- The elements a `range` over the slice visits, in index order. -/
def elems {α : Type} : Slice α → List α
  | .nil => []
  | .mk l => l

/-- Go `len(s)`. -/
def len {α : Type} (s : Slice α) : Int := (s.elems.length : Int)

/-- Go `append(s, x)`: the result is never nil. -/
def append {α : Type} (s : Slice α) (x : α) : Slice α := .mk (s.elems ++ [x])

/-- The `(index, element)` pairs of `for index, element := range s`; the index
is a Go `int`. -/
def rangePairs {α : Type} (s : Slice α) : List (Int × α) :=
  s.elems.enum.map (fun p => ((p.1 : Int), p.2))

end Slice

/-- Source: `type GraphNode struct { Name string }`. -/
structure GraphNode where
  Name : GoString
  deriving DecidableEq, Repr

/-- Source: `type GraphLink struct { Source int; Target int }`. -/
structure GraphLink where
  Source : Int
  Target : Int
  deriving DecidableEq, Repr

/-- Source: `type FinalGraph struct { Nodes []GraphNode; Links []GraphLink }`. -/
structure FinalGraph where
  Nodes : Slice GraphNode
  Links : Slice GraphLink
  deriving DecidableEq, Repr

/-- The first loop of `buildGraph`: one node appended per key visited. -/
def collectNodes (order : List Key) : Slice GraphNode :=
  order.foldl (fun nodes key => nodes.append (GraphNode.mk key)) Slice.nil

/-- The body of the inner loop of `buildGraph` for one pair of nodes. -/
def linkStep (values : ValuesMap) (index1 : Int) (node1 : GraphNode)
    (links : Slice GraphLink) (p2 : Int × GraphNode) : Slice GraphLink :=
  match values.findRelation node1.Name p2.2.Name with
  | .IsEqualTo => links.append (GraphLink.mk index1 p2.1)
  | .LeftDerivedFromRight => links.append (GraphLink.mk index1 p2.1)
  | _ => links

/-- The nested loops of `buildGraph` over the node slice. -/
def collectLinks (values : ValuesMap) (nodes : Slice GraphNode) : Slice GraphLink :=
  nodes.rangePairs.foldl
    (fun links p1 => nodes.rangePairs.foldl (linkStep values p1.1 p1.2) links)
    Slice.nil

/-- Source: `func (values ValuesMap) buildGraph() FinalGraph`, with `order` the
order in which `range values` visits the keys. -/
def ValuesMap.buildGraph (values : ValuesMap) (order : List Key) : FinalGraph :=
  let nodes := collectNodes order
  let links := collectLinks values nodes
  { Nodes := nodes, Links := links }

/-- Whether the inner loop body appends a link for the pair `(node1, node2)`:
the two `case` labels of the source's `switch`. -/
def emitsLink (values : ValuesMap) (node1 node2 : GraphNode) : Bool :=
  match values.findRelation node1.Name node2.Name with
  | .IsEqualTo => true
  | .LeftDerivedFromRight => true
  | _ => false

/-- The links the nested loops append, written as a comprehension over the
`(index, node)` pairs. -/
def linksOf (values : ValuesMap) (ps : List (Int × GraphNode)) : List GraphLink :=
  ps.flatMap (fun p1 =>
    (ps.filter (fun p2 => emitsLink values p1.2 p2.2)).map (fun p2 => GraphLink.mk p1.1 p2.1))

/-- The bytes of `"a"`. -/
def strA : GoString := [97]
/-- The bytes of `"b"`. -/
def strB : GoString := [98]
/-- The bytes of `"c"`. -/
def strC : GoString := [99]
/-- The bytes of `"hello"`. -/
def strHello : GoString := [104, 101, 108, 108, 111]
/-- The bytes of `"hello world"`. -/
def strHelloWorld : GoString := [104, 101, 108, 108, 111, 32, 119, 111, 114, 108, 100]
/-- The bytes of `"bye"`. -/
def strBye : GoString := [98, 121, 101]

/-- The mapping `{"a": "hello", "b": "hello world", "c": "bye"}`. -/
def exampleMap : ValuesMap :=
  ⟨[(strA, strHello), (strB, strHelloWorld), (strC, strBye)], by decide⟩

/-- The mapping `{"a": "hello", "b": "hello"}`: two keys, identical values. -/
def twinMap : ValuesMap :=
  ⟨[(strA, strHello), (strB, strHello)], by decide⟩

/-- The empty mapping `{}`. -/
def emptyMap : ValuesMap := ⟨[], List.nodup_nil⟩

/-- The lexicographic order on links: by `Source`, then by `Target`. -/
def linkLess (a b : GraphLink) : Prop :=
  a.Source < b.Source ∨ (a.Source = b.Source ∧ a.Target < b.Target)

/-- A JSON value, the data model of the Go library `encoding/json`.  Numbers
are restricted to the integers, the only numbers a `FinalGraph` holds; the
members of an object are kept in the order they are written. -/
inductive Json where
  | null
  | number (n : Int)
  | string (s : GoString)
  | array (items : List Json)
  | object (members : List (String × Json))

/-- Whether a JSON value is an array. -/
def Json.isArray : Json → Bool
  | .array _ => true
  | _ => false

/-- The value of the first member called `name` of a JSON object. -/
def Json.member (name : String) : Json → Option Json
  | .object members => (members.find? (fun m => m.1 == name)).map Prod.snd
  | _ => none

/-- The bounds `acceptRanges` of the Go library `unicode/utf8` puts on the
second byte of an encoding that starts with `b0`. -/
def acceptRange (b0 : UInt8) : UInt8 × UInt8 :=
  if b0 = 0xE0 then (0xA0, 0xBF)
  else if b0 = 0xED then (0x80, 0x9F)
  else if b0 = 0xF0 then (0x90, 0xBF)
  else if b0 = 0xF4 then (0x80, 0x8F)
  else (0x80, 0xBF)

/-- A continuation byte: between `locb = 0x80` and `hicb = 0xBF`. -/
def isContinuation (b : UInt8) : Bool := decide (0x80 ≤ b) && decide (b ≤ 0xBF)

/-- The second byte `b1` is accepted after the first byte `b0`. -/
def isAccepted (b0 b1 : UInt8) : Bool :=
  decide ((acceptRange b0).1 ≤ b1) && decide (b1 ≤ (acceptRange b0).2)

/-- Go library `utf8.DecodeRuneInString`, the width it reports: `some n` when
the string starts with a well-formed encoding of `n` bytes, `none` when the
first byte starts no well-formed encoding (Go returns `RuneError` with width 1;
the empty string, width 0, is not passed in by the callers). -/
def decodeRuneWidth : GoString → Option Nat
  | [] => none
  | b0 :: rest =>
    if b0 < 0x80 then some 1
    else if b0 < 0xC2 then none
    else if b0 ≤ 0xDF then
      match rest with
      | b1 :: _ => if isAccepted b0 b1 then some 2 else none
      | _ => none
    else if b0 ≤ 0xEF then
      match rest with
      | b1 :: b2 :: _ => if isAccepted b0 b1 && isContinuation b2 then some 3 else none
      | _ => none
    else if b0 ≤ 0xF4 then
      match rest with
      | b1 :: b2 :: b3 :: _ =>
        if isAccepted b0 b1 && isContinuation b2 && isContinuation b3 then some 4 else none
      | _ => none
    else none

/-- The UTF-8 encoding of the replacement rune U+FFFD. -/
def replacementRune : GoString := [0xEF, 0xBF, 0xBD]

/-- The string scan of the `encoding/json` encoder with `pending` bytes left of
the encoding being copied: a well-formed encoding is copied, a byte that starts
none is replaced by U+FFFD. -/
def toValidUTF8From : Nat → GoString → GoString
  | _, [] => []
  | pending + 1, b :: rest => b :: toValidUTF8From pending rest
  | 0, b :: rest =>
    match decodeRuneWidth (b :: rest) with
    | none => replacementRune ++ toValidUTF8From 0 rest
    | some n => b :: toValidUTF8From (n - 1) rest

/-- The content of the JSON string `encoding/json` writes for a Go string:
"coerced to valid UTF-8, replacing invalid bytes with the Unicode replacement
rune" (escaping is a matter of the text, not of the value). -/
def toValidUTF8 (s : GoString) : GoString := toValidUTF8From 0 s

/-- The scan of `utf8.ValidString` with `pending` bytes left of the encoding
being skipped. -/
def validFrom : Nat → GoString → Bool
  | _, [] => true
  | pending + 1, _ :: rest => validFrom pending rest
  | 0, b :: rest =>
    match decodeRuneWidth (b :: rest) with
    | none => false
    | some n => validFrom (n - 1) rest

/-- Go library `utf8.ValidString`: the string consists of well-formed UTF-8
encodings only. -/
def ValidString (s : GoString) : Bool := validFrom 0 s

/-- What `json.Marshal` writes for a `GraphNode`, by its field tag
`json:"name"`. -/
def marshalGraphNode (n : GraphNode) : Json :=
  Json.object [("name", Json.string (toValidUTF8 n.Name))]

/-- What `json.Marshal` writes for a `GraphLink`, by its field tags
`json:"source"` and `json:"target"`. -/
def marshalGraphLink (l : GraphLink) : Json :=
  Json.object [("source", Json.number l.Source), ("target", Json.number l.Target)]

/-- What `json.Marshal` writes for a slice: "slice values encode as JSON
arrays, except that a nil slice encodes as the null JSON value". -/
def marshalSlice {α : Type} (f : α → Json) : Slice α → Json
  | .nil => Json.null
  | .mk l => Json.array (l.map f)

/-- Source: `json.Marshal(finalGraph)` in `mainWithError`, by the field tags
`json:"nodes"` and `json:"links"` of `FinalGraph`.  For this type `Marshal`
returns no error. -/
def marshalFinalGraph (g : FinalGraph) : Json :=
  Json.object [("nodes", marshalSlice marshalGraphNode g.Nodes),
    ("links", marshalSlice marshalGraphLink g.Links)]

/-- The code point of the smallest rune of the simple-folding class of `c`, as
far as that class meets ASCII: a small letter folds to its capital, the Kelvin
sign U+212A to `K`, the long s U+017F to `S`; any other rune stands for itself,
which is exact when the other side of the comparison is made of ASCII letters,
as every field tag of `main.go` is. -/
def foldCode (c : Char) : Nat :=
  if 97 ≤ c.toNat ∧ c.toNat ≤ 122 then c.toNat - 32
  else if c.toNat = 0x212A then 75
  else if c.toNat = 0x017F then 83
  else c.toNat

/-- Whether `json.Unmarshal` stores the member called `key` into the field
tagged `field`: "preferring an exact match but also accepting a
case-insensitive match".  No two fields of one struct of `main.go` fold to the
same name, so the preference decides nothing. -/
def matchesField (field key : String) : Bool :=
  key.data.map foldCode == field.data.map foldCode

/-- What `json.Unmarshal` stores into a `string` holding `cur`: the content of
a JSON string (invalid UTF-8 replaced by U+FFFD), no change on `null`, an error
otherwise. -/
def unmarshalString (cur : GoString) : Json → Option GoString
  | .string s => some (toValidUTF8 s)
  | .null => some cur
  | _ => none

/-- A number fits a Go `int` (64 bits). -/
def fitsInt (n : Int) : Prop := -(2 : Int) ^ 63 ≤ n ∧ n < (2 : Int) ^ 63

instance (n : Int) : Decidable (fitsInt n) :=
  inferInstanceAs (Decidable (-(2 : Int) ^ 63 ≤ n ∧ n < (2 : Int) ^ 63))

/-- What `json.Unmarshal` stores into an `int` holding `cur`: a number that
fits 64 bits, no change on `null`, an error otherwise. -/
def unmarshalInt (cur : Int) : Json → Option Int
  | .number n => if fitsInt n then some n else none
  | .null => some cur
  | _ => none

/-- What `json.Unmarshal` makes of a `GraphNode` holding `cur`: the members of
the object are taken in order, a member matching `name` is stored, the others
are ignored; `null` changes nothing; anything else is an error. -/
def unmarshalGraphNode (cur : GraphNode) : Json → Option GraphNode
  | .object members =>
    members.foldlM
      (fun node m =>
        if matchesField "name" m.1 then (unmarshalString node.Name m.2).map GraphNode.mk
        else some node)
      cur
  | .null => some cur
  | _ => none

/-- What `json.Unmarshal` makes of a `GraphLink` holding `cur`. -/
def unmarshalGraphLink (cur : GraphLink) : Json → Option GraphLink
  | .object members =>
    members.foldlM
      (fun link m =>
        if matchesField "source" m.1 then
          (unmarshalInt link.Source m.2).map (fun n => GraphLink.mk n link.Target)
        else if matchesField "target" m.1 then
          (unmarshalInt link.Target m.2).map (fun n => GraphLink.mk link.Source n)
        else some link)
      cur
  | .null => some cur
  | _ => none

/-- A slice variable that `json.Unmarshal` decodes into: its value, and the
elements its backing array holds from index 0 on, those beyond the length
included (elements never written are zero and are left out). -/
structure SliceTarget (α : Type) where
  value : Slice α
  backing : List α

/-- The elements of a JSON array decoded one by one, element `i` into what the
backing array holds at index `i` (the zero value where it holds nothing); an
error in one element is an error of the whole. -/
def unmarshalItems {α : Type} (f : α → Json → Option α) (zero : α) :
    List α → List Json → Option (List α)
  | _, [] => some []
  | backing, j :: js =>
    match f (backing.headD zero) j, unmarshalItems f zero backing.tail js with
    | some a, some rest => some (a :: rest)
    | _, _ => none

/-- What `json.Unmarshal` stores into a slice: `null` sets it to nil, an empty
array to a new empty slice, an array to the slice of the decoded elements,
which reuses the backing array; anything else is an error. -/
def unmarshalSlice {α : Type} (f : α → Json → Option α) (zero : α)
    (cur : SliceTarget α) : Json → Option (SliceTarget α)
  | .null => some (SliceTarget.mk Slice.nil [])
  | .array [] => some (SliceTarget.mk (Slice.mk []) [])
  | .array (j :: js) =>
    (unmarshalItems f zero cur.backing (j :: js)).map
      (fun l => SliceTarget.mk (Slice.mk l) (l ++ cur.backing.drop l.length))
  | _ => none

/-- The two slice fields of the `FinalGraph` being decoded into. -/
structure GraphTarget where
  nodes : SliceTarget GraphNode
  links : SliceTarget GraphLink

/-- One member of the JSON object stored into the `FinalGraph`: a member
matching `nodes` or `links` goes into that field, any other is ignored. -/
def unmarshalMember (t : GraphTarget) (m : String × Json) : Option GraphTarget :=
  if matchesField "nodes" m.1 then
    (unmarshalSlice unmarshalGraphNode (GraphNode.mk []) t.nodes m.2).map
      (fun s => GraphTarget.mk s t.links)
  else if matchesField "links" m.1 then
    (unmarshalSlice unmarshalGraphLink (GraphLink.mk 0 0) t.links m.2).map
      (fun s => GraphTarget.mk t.nodes s)
  else some t

/-- Go library `json.Unmarshal(data, &g)` for a fresh `var g FinalGraph`:
`none` stands for an error. -/
def unmarshalFinalGraph : Json → Option FinalGraph
  | .object members =>
    (members.foldlM unmarshalMember
      (GraphTarget.mk (SliceTarget.mk Slice.nil []) (SliceTarget.mk Slice.nil []))).map
      (fun t => FinalGraph.mk t.nodes.value t.links.value)
  | .null => some (FinalGraph.mk Slice.nil Slice.nil)
  | _ => none

/-- A slice with `f` applied to every element; nil stays nil. -/
def Slice.map {α β : Type} (f : α → β) : Slice α → Slice β
  | .nil => Slice.nil
  | .mk l => Slice.mk (l.map f)

/-- The node as it comes back from the JSON encoding: its name coerced to valid
UTF-8. -/
def coerceNode (n : GraphNode) : GraphNode := GraphNode.mk (toValidUTF8 n.Name)

/-- The mapping with the one key `"\xff"`, a byte that is not valid UTF-8, and
the value `"hello"`. -/
def binaryKeyMap : ValuesMap := ⟨[([0xFF], strHello)], by decide⟩

end YamlNormal

namespace YamlNormal

/-! ## Substring search -/

theorem indexFrom_nonneg_iff (substr s : GoString) (i : Nat) :
    0 ≤ indexFrom substr s i ↔ substr <:+: s := by
  induction s generalizing i with
  | nil =>
    unfold indexFrom
    by_cases h : substr = []
    · simp [h]
    · simp [h]
  | cons c rest ih =>
    unfold indexFrom
    by_cases h : substr.isPrefixOf (c :: rest) = true
    · rw [if_pos h]
      have hp : substr <+: c :: rest := List.isPrefixOf_iff_prefix.mp h
      simp [hp.isInfix]
    · rw [if_neg h, ih (i + 1), List.infix_cons_iff]
      have hp : ¬ substr <+: c :: rest := fun hp => h (List.isPrefixOf_iff_prefix.mpr hp)
      simp [hp]

theorem contains_iff (s substr : GoString) : Contains s substr = true ↔ substr <:+: s := by
  unfold Contains Index
  rw [decide_eq_true_iff]
  exact indexFrom_nonneg_iff substr s 0

theorem contains_eq_false_iff (s substr : GoString) :
    Contains s substr = false ↔ ¬ substr <:+: s := by
  rw [← contains_iff, Bool.not_eq_true]

theorem substring_antisymm {a b : GoString} (h1 : a <:+: b) (h2 : b <:+: a) : a = b :=
  h1.eq_of_length (Nat.le_antisymm h1.length_le h2.length_le)

/-! ## The classifier -/

theorem findRelation_eq_isEqualTo (raw : ValuesMap) (k1 k2 : Key) :
    raw.findRelation k1 k2 = Relation.IsEqualTo ↔ raw.index k1 = raw.index k2 := by
  unfold ValuesMap.findRelation
  by_cases h : raw.index k1 = raw.index k2
  · simp [h]
  · simp only [h, if_false, iff_false]
    split_ifs <;> simp

theorem findRelation_eq_left (raw : ValuesMap) (k1 k2 : Key) :
    raw.findRelation k1 k2 = Relation.LeftDerivedFromRight ↔
      raw.index k1 ≠ raw.index k2 ∧ raw.index k2 <:+: raw.index k1 := by
  unfold ValuesMap.findRelation
  by_cases h : raw.index k1 = raw.index k2
  · simp [h]
  · by_cases h1 : Contains (raw.index k1) (raw.index k2) = true
    · simp [h, h1, (contains_iff _ _).mp h1]
    · have h1' : ¬ raw.index k2 <:+: raw.index k1 := fun hh => h1 ((contains_iff _ _).mpr hh)
      have h1b : Contains (raw.index k1) (raw.index k2) = false := by simpa using h1
      simp only [h, h1b, h1', and_false, iff_false, if_false, Bool.false_eq_true]
      split_ifs <;> simp

theorem findRelation_eq_right (raw : ValuesMap) (k1 k2 : Key) :
    raw.findRelation k1 k2 = Relation.RightDerivedFromLeft ↔
      ¬ raw.index k2 <:+: raw.index k1 ∧ raw.index k1 <:+: raw.index k2 := by
  unfold ValuesMap.findRelation
  by_cases h : raw.index k1 = raw.index k2
  · simp [h]
  · by_cases h1 : Contains (raw.index k1) (raw.index k2) = true
    · simp [h, h1, (contains_iff _ _).mp h1]
    · have h1' : ¬ raw.index k2 <:+: raw.index k1 := fun hh => h1 ((contains_iff _ _).mpr hh)
      by_cases h2 : Contains (raw.index k2) (raw.index k1) = true
      · simp [h, h1, h2, h1', (contains_iff _ _).mp h2]
      · have h2' : ¬ raw.index k1 <:+: raw.index k2 :=
          fun hh => h2 ((contains_iff _ _).mpr hh)
        simp [h, h1, h2, h1', h2']

theorem findRelation_eq_unrelated (raw : ValuesMap) (k1 k2 : Key) :
    raw.findRelation k1 k2 = Relation.Unrelated ↔
      ¬ raw.index k2 <:+: raw.index k1 ∧ ¬ raw.index k1 <:+: raw.index k2 := by
  unfold ValuesMap.findRelation
  by_cases h : raw.index k1 = raw.index k2
  · simp [h]
  · by_cases h1 : Contains (raw.index k1) (raw.index k2) = true
    · simp [h, h1, (contains_iff _ _).mp h1]
    · have h1' : ¬ raw.index k2 <:+: raw.index k1 := fun hh => h1 ((contains_iff _ _).mpr hh)
      by_cases h2 : Contains (raw.index k2) (raw.index k1) = true
      · simp [h, h1, h2, h1', (contains_iff _ _).mp h2]
      · have h2' : ¬ raw.index k1 <:+: raw.index k2 :=
          fun hh => h2 ((contains_iff _ _).mpr hh)
        simp [h, h1, h2, h1', h2']

theorem emitsLink_iff (values : ValuesMap) (n1 n2 : GraphNode) :
    emitsLink values n1 n2 = true ↔
      values.findRelation n1.Name n2.Name = Relation.IsEqualTo ∨
      values.findRelation n1.Name n2.Name = Relation.LeftDerivedFromRight := by
  unfold emitsLink
  cases values.findRelation n1.Name n2.Name <;> simp

theorem emitsLink_iff_substring (values : ValuesMap) (n1 n2 : GraphNode) :
    emitsLink values n1 n2 = true ↔ values.index n2.Name <:+: values.index n1.Name := by
  rw [emitsLink_iff, findRelation_eq_isEqualTo, findRelation_eq_left]
  constructor
  · rintro (h | h)
    · rw [h]
    · exact h.2
  · intro h
    by_cases he : values.index n1.Name = values.index n2.Name
    · exact Or.inl he
    · exact Or.inr ⟨he, h⟩

/-! ## The loops of `buildGraph` -/

theorem foldl_append_elems (order : List Key) (s : Slice GraphNode) :
    (order.foldl (fun nodes key => nodes.append (GraphNode.mk key)) s).elems =
      s.elems ++ order.map GraphNode.mk := by
  induction order generalizing s with
  | nil => simp
  | cons k rest ih =>
    rw [List.foldl_cons, ih]
    simp [Slice.append, Slice.elems]

theorem collectNodes_elems (order : List Key) :
    (collectNodes order).elems = order.map GraphNode.mk := by
  unfold collectNodes
  rw [foldl_append_elems]
  simp [Slice.elems]

theorem linkStep_eq (values : ValuesMap) (index1 : Int) (node1 : GraphNode)
    (links : Slice GraphLink) (p2 : Int × GraphNode) :
    linkStep values index1 node1 links p2 =
      if emitsLink values node1 p2.2 then links.append (GraphLink.mk index1 p2.1)
      else links := by
  unfold linkStep emitsLink
  cases values.findRelation node1.Name p2.2.Name <;> simp

theorem inner_loop_elems (values : ValuesMap) (index1 : Int) (node1 : GraphNode)
    (ps : List (Int × GraphNode)) (links : Slice GraphLink) :
    (ps.foldl (linkStep values index1 node1) links).elems =
      links.elems ++
        (ps.filter (fun p2 => emitsLink values node1 p2.2)).map
          (fun p2 => GraphLink.mk index1 p2.1) := by
  induction ps generalizing links with
  | nil => simp
  | cons p rest ih =>
    rw [List.foldl_cons, ih, linkStep_eq]
    by_cases h : emitsLink values node1 p.2 = true
    · simp [h, Slice.append, Slice.elems]
    · simp [h]

theorem outer_loop_elems (values : ValuesMap) (ps qs : List (Int × GraphNode))
    (links : Slice GraphLink) :
    (qs.foldl (fun links p1 => ps.foldl (linkStep values p1.1 p1.2) links) links).elems =
      links.elems ++
        qs.flatMap (fun p1 =>
          (ps.filter (fun p2 => emitsLink values p1.2 p2.2)).map
            (fun p2 => GraphLink.mk p1.1 p2.1)) := by
  induction qs generalizing links with
  | nil => simp
  | cons q rest ih =>
    rw [List.foldl_cons, ih, inner_loop_elems]
    simp [List.flatMap_cons]

theorem collectLinks_elems (values : ValuesMap) (nodes : Slice GraphNode) :
    (collectLinks values nodes).elems = linksOf values nodes.rangePairs := by
  unfold collectLinks linksOf
  rw [outer_loop_elems]
  simp [Slice.elems]

theorem mem_rangePairs {α : Type} (s : Slice α) (x : Int) (a : α) :
    (x, a) ∈ s.rangePairs ↔ ∃ i : Nat, x = (i : Int) ∧ s.elems[i]? = some a := by
  unfold Slice.rangePairs
  simp only [List.mem_map, Prod.mk.injEq]
  constructor
  · rintro ⟨⟨i, b⟩, hmem, hx, hb⟩
    refine ⟨i, hx.symm, ?_⟩
    have := List.mk_mem_enum_iff_getElem?.mp hmem
    simpa [← hb] using this
  · rintro ⟨i, hx, hi⟩
    exact ⟨(i, a), List.mk_mem_enum_iff_getElem?.mpr hi, hx.symm, rfl⟩

theorem mem_linksOf (values : ValuesMap) (ps : List (Int × GraphNode)) (l : GraphLink) :
    l ∈ linksOf values ps ↔
      ∃ p1 ∈ ps, ∃ p2 ∈ ps, emitsLink values p1.2 p2.2 = true ∧ l = GraphLink.mk p1.1 p2.1 := by
  unfold linksOf
  simp only [List.mem_flatMap, List.mem_map, List.mem_filter]
  constructor
  · rintro ⟨p1, h1, p2, ⟨h2, he⟩, rfl⟩
    exact ⟨p1, h1, p2, h2, he, rfl⟩
  · rintro ⟨p1, h1, p2, h2, he, rfl⟩
    exact ⟨p1, h1, p2, ⟨h2, he⟩, rfl⟩

theorem buildGraph_nodes (values : ValuesMap) (order : List Key) :
    (values.buildGraph order).Nodes.elems = order.map GraphNode.mk := by
  unfold ValuesMap.buildGraph
  exact collectNodes_elems order

theorem buildGraph_links (values : ValuesMap) (order : List Key) :
    (values.buildGraph order).Links.elems =
      linksOf values (values.buildGraph order).Nodes.rangePairs := by
  unfold ValuesMap.buildGraph
  exact collectLinks_elems values (collectNodes order)

theorem mem_links_iff (values : ValuesMap) (order : List Key) (l : GraphLink) :
    l ∈ (values.buildGraph order).Links.elems ↔
      ∃ (i j : Nat) (ni nj : GraphNode),
        (values.buildGraph order).Nodes.elems[i]? = some ni ∧
        (values.buildGraph order).Nodes.elems[j]? = some nj ∧
        emitsLink values ni nj = true ∧ l = GraphLink.mk (i : Int) (j : Int) := by
  rw [buildGraph_links, mem_linksOf]
  constructor
  · rintro ⟨⟨x1, n1⟩, h1, ⟨x2, n2⟩, h2, he, rfl⟩
    obtain ⟨i, rfl, hi⟩ := (mem_rangePairs _ _ _).mp h1
    obtain ⟨j, rfl, hj⟩ := (mem_rangePairs _ _ _).mp h2
    exact ⟨i, j, n1, n2, hi, hj, he, rfl⟩
  · rintro ⟨i, j, ni, nj, hi, hj, he, rfl⟩
    exact ⟨((i : Int), ni), (mem_rangePairs _ _ _).mpr ⟨i, rfl, hi⟩,
      ((j : Int), nj), (mem_rangePairs _ _ _).mpr ⟨j, rfl, hj⟩, he, rfl⟩

theorem link_mem_iff (values : ValuesMap) (order : List Key) (i j : Nat)
    (ni nj : GraphNode)
    (hi : (values.buildGraph order).Nodes.elems[i]? = some ni)
    (hj : (values.buildGraph order).Nodes.elems[j]? = some nj) :
    GraphLink.mk (i : Int) (j : Int) ∈ (values.buildGraph order).Links.elems ↔
      emitsLink values ni nj = true := by
  rw [mem_links_iff]
  constructor
  · rintro ⟨i', j', ni', nj', hi', hj', he, heq⟩
    simp only [GraphLink.mk.injEq, Nat.cast_inj] at heq
    obtain ⟨rfl, rfl⟩ := heq
    rw [hi] at hi'
    rw [hj] at hj'
    cases hi'
    cases hj'
    exact he
  · intro he
    exact ⟨i, j, ni, nj, hi, hj, he, rfl⟩

/-! ## Claims about `findRelation` -/

/-- C1: `findRelation k1 k2` returns `IsEqualTo` exactly when `raw[k1]` and
`raw[k2]` are the identical string (both empty included); in particular
`findRelation k k` is `IsEqualTo`, and two equal values (non-empty or not) are
never classified `LeftDerivedFromRight` or `RightDerivedFromLeft`. -/
theorem findRelation_isEqualTo_spec (raw : ValuesMap) (k1 k2 : Key) :
    (raw.findRelation k1 k2 = Relation.IsEqualTo ↔ raw.index k1 = raw.index k2) ∧
    raw.findRelation k1 k1 = Relation.IsEqualTo ∧
    (raw.index k1 = raw.index k2 →
      raw.findRelation k1 k2 ≠ Relation.LeftDerivedFromRight ∧
      raw.findRelation k1 k2 ≠ Relation.RightDerivedFromLeft) := by
  refine ⟨findRelation_eq_isEqualTo raw k1 k2, ?_, ?_⟩
  · exact (findRelation_eq_isEqualTo raw k1 k1).mpr rfl
  · intro h
    rw [(findRelation_eq_isEqualTo raw k1 k2).mpr h]
    exact ⟨by decide, by decide⟩

/-- Witness for C1 on `{"a": "hello", "b": "hello"}` with the keys `a` and `b`,
whose values are equal and non-empty. -/
theorem findRelation_isEqualTo_spec_witness :
    twinMap.index strA = twinMap.index strB ∧ twinMap.index strA ≠ [] ∧
    twinMap.findRelation strA strB = Relation.IsEqualTo ∧
    twinMap.findRelation strA strA = Relation.IsEqualTo ∧
    twinMap.findRelation strA strB ≠ Relation.LeftDerivedFromRight ∧
    twinMap.findRelation strA strB ≠ Relation.RightDerivedFromLeft :=
  ⟨by decide, by decide,
    (findRelation_isEqualTo_spec twinMap strA strB).1.mpr (by decide),
    (findRelation_isEqualTo_spec twinMap strA strB).2.1,
    (findRelation_isEqualTo_spec twinMap strA strB).2.2 (by decide)⟩

/-- C2: when `a ≠ b`, `a` is a non-empty substring of `b`, `b` is not a
substring of `a`, `raw[ka]` is `a` and `raw[kb]` is `b`, then
`findRelation kb ka` is `LeftDerivedFromRight` and `findRelation ka kb` is
`RightDerivedFromLeft`. -/
theorem findRelation_derived_spec (raw : ValuesMap) (ka kb : Key) (a b : Value)
    (hka : raw.index ka = a) (hkb : raw.index kb = b)
    (hne : a ≠ b) (_ha : a ≠ []) (hab : a <:+: b) (hba : ¬ b <:+: a) :
    raw.findRelation kb ka = Relation.LeftDerivedFromRight ∧
    raw.findRelation ka kb = Relation.RightDerivedFromLeft := by
  subst hka hkb
  exact ⟨(findRelation_eq_left raw kb ka).mpr ⟨fun h => hne h.symm, hab⟩,
    (findRelation_eq_right raw ka kb).mpr ⟨hba, hab⟩⟩

/-- Witness for C2 on `{"a": "hello", "b": "hello world", "c": "bye"}` with
`a = "hello"` and `b = "hello world"`. -/
theorem findRelation_derived_spec_witness :
    exampleMap.findRelation strB strA = Relation.LeftDerivedFromRight ∧
    exampleMap.findRelation strA strB = Relation.RightDerivedFromLeft :=
  findRelation_derived_spec exampleMap strA strB strHello strHelloWorld
    (by decide) (by decide) (by decide) (by decide)
    ⟨[], [32, 119, 111, 114, 108, 100], rfl⟩
    (fun h => absurd h.length_le (by decide))

/-- C3: when `raw[ka]` is `a`, `raw[kb]` is `b` and neither of `a`, `b` is a
substring of the other, `findRelation` is `Unrelated` in both argument orders;
conversely `findRelation ka kb` is `Unrelated` only when neither value contains
the other. -/
theorem findRelation_unrelated_spec (raw : ValuesMap) (ka kb : Key) (a b : Value)
    (hka : raw.index ka = a) (hkb : raw.index kb = b) :
    (¬ a <:+: b → ¬ b <:+: a →
      raw.findRelation ka kb = Relation.Unrelated ∧
      raw.findRelation kb ka = Relation.Unrelated) ∧
    (raw.findRelation ka kb = Relation.Unrelated → ¬ a <:+: b ∧ ¬ b <:+: a) := by
  subst hka hkb
  refine ⟨fun h1 h2 => ⟨(findRelation_eq_unrelated raw ka kb).mpr ⟨h2, h1⟩,
    (findRelation_eq_unrelated raw kb ka).mpr ⟨h1, h2⟩⟩, fun h => ?_⟩
  have := (findRelation_eq_unrelated raw ka kb).mp h
  exact ⟨this.2, this.1⟩

/-- Witness for C3 on `{"a": "hello", "b": "hello world", "c": "bye"}` with
`a = "hello"` and `b = "bye"`. -/
theorem findRelation_unrelated_spec_witness :
    (¬ strHello <:+: strBye ∧ ¬ strBye <:+: strHello) ∧
    exampleMap.findRelation strA strC = Relation.Unrelated ∧
    exampleMap.findRelation strC strA = Relation.Unrelated :=
  ⟨⟨by decide, by decide⟩,
    (findRelation_unrelated_spec exampleMap strA strC strHello strBye
      (by decide) (by decide)).1 (by decide) (by decide)⟩

/-! ## Claims about `buildGraph` -/

/-- C4: for node indices `i`, `j` of the graph `buildGraph` returns (`i = j`
included), holding the nodes `ni` and `nj`, the link `{Source: i, Target: j}`
occurs in `Links` exactly when `findRelation ni.Name nj.Name` is `IsEqualTo` or
`LeftDerivedFromRight`, that is, exactly when the value of `ni`'s key equals or
contains as a substring the value of `nj`'s key; a pair classified
`RightDerivedFromLeft` or `Unrelated` produces no link. -/
theorem buildGraph_link_iff (values : ValuesMap) (order : List Key) (i j : Nat)
    (ni nj : GraphNode)
    (hi : (values.buildGraph order).Nodes.elems[i]? = some ni)
    (hj : (values.buildGraph order).Nodes.elems[j]? = some nj) :
    (GraphLink.mk (i : Int) (j : Int) ∈ (values.buildGraph order).Links.elems ↔
      values.findRelation ni.Name nj.Name = Relation.IsEqualTo ∨
      values.findRelation ni.Name nj.Name = Relation.LeftDerivedFromRight) ∧
    (GraphLink.mk (i : Int) (j : Int) ∈ (values.buildGraph order).Links.elems ↔
      values.index ni.Name = values.index nj.Name ∨
      values.index nj.Name <:+: values.index ni.Name) ∧
    (values.findRelation ni.Name nj.Name = Relation.RightDerivedFromLeft ∨
      values.findRelation ni.Name nj.Name = Relation.Unrelated →
      GraphLink.mk (i : Int) (j : Int) ∉ (values.buildGraph order).Links.elems) := by
  have key := link_mem_iff values order i j ni nj hi hj
  refine ⟨key.trans (emitsLink_iff values ni nj), ?_, ?_⟩
  · rw [key, emitsLink_iff_substring]
    constructor
    · exact Or.inr
    · rintro (h | h)
      · rw [h]
      · exact h
  · intro h hmem
    rcases (emitsLink_iff values ni nj).mp (key.mp hmem) with h' | h' <;>
      rcases h with h | h <;> rw [h] at h' <;> cases h'

/-- Witness for C4 on `{"a": "hello", "b": "hello world", "c": "bye"}` visited
in the order `a, b, c`, at the indices `1` (node `b`) and `0` (node `a`). -/
theorem buildGraph_link_iff_witness :
    (exampleMap.buildGraph [strA, strB, strC]).Nodes.elems[1]? = some (GraphNode.mk strB) ∧
    (exampleMap.buildGraph [strA, strB, strC]).Nodes.elems[0]? = some (GraphNode.mk strA) ∧
    GraphLink.mk 1 0 ∈ (exampleMap.buildGraph [strA, strB, strC]).Links.elems :=
  ⟨by decide, by decide,
    (buildGraph_link_iff exampleMap [strA, strB, strC] 1 0 (GraphNode.mk strB)
      (GraphNode.mk strA) (by decide) (by decide)).1.mpr (Or.inr (by decide))⟩

/-- C5: when `range` visits the keys of the mapping in the order `order`,
`buildGraph` returns exactly `len(values)` nodes, their names are pairwise
distinct, and the set of node names is the set of keys of the mapping. -/
theorem buildGraph_nodes_spec (values : ValuesMap) (order : List Key)
    (h : values.IsRangeOrder order) :
    (values.buildGraph order).Nodes.elems.length = values.len ∧
    ((values.buildGraph order).Nodes.elems.map GraphNode.Name).Nodup ∧
    (∀ k : Key, k ∈ (values.buildGraph order).Nodes.elems.map GraphNode.Name ↔
      k ∈ values.keys) := by
  have hnames : (values.buildGraph order).Nodes.elems.map GraphNode.Name = order := by
    rw [buildGraph_nodes, List.map_map]
    exact List.map_id _
  have hperm : order.Perm values.keys := h
  refine ⟨?_, ?_, ?_⟩
  · rw [buildGraph_nodes, List.length_map, hperm.length_eq]
    simp [ValuesMap.keys, ValuesMap.len]
  · rw [hnames]
    exact hperm.nodup_iff.mpr values.nodup
  · intro k
    rw [hnames]
    exact hperm.mem_iff

/-- Witness for C5 on `{"a": "hello", "b": "hello world", "c": "bye"}` visited
in the order `b, a, c`. -/
theorem buildGraph_nodes_spec_witness :
    exampleMap.IsRangeOrder [strB, strA, strC] ∧
    (exampleMap.buildGraph [strB, strA, strC]).Nodes.elems.length = exampleMap.len ∧
    ((exampleMap.buildGraph [strB, strA, strC]).Nodes.elems.map GraphNode.Name).Nodup :=
  ⟨by decide,
    (buildGraph_nodes_spec exampleMap [strB, strA, strC] (by decide)).1,
    (buildGraph_nodes_spec exampleMap [strB, strA, strC] (by decide)).2.1⟩

/-- C6: for every node index `i` of the graph `buildGraph` returns, `Links`
contains the self-loop `{Source: i, Target: i}`. -/
theorem buildGraph_self_loop (values : ValuesMap) (order : List Key) (i : Nat)
    (hi : i < (values.buildGraph order).Nodes.elems.length) :
    GraphLink.mk (i : Int) (i : Int) ∈ (values.buildGraph order).Links.elems := by
  have hget : (values.buildGraph order).Nodes.elems[i]? =
      some ((values.buildGraph order).Nodes.elems[i]) := List.getElem?_eq_getElem hi
  rw [link_mem_iff values order i i _ _ hget hget, emitsLink_iff]
  exact Or.inl ((findRelation_eq_isEqualTo values _ _).mpr rfl)

/-- Witness for C6 on `{"a": "hello", "b": "hello world", "c": "bye"}` visited
in the order `a, b, c`, at index `2`. -/
theorem buildGraph_self_loop_witness :
    GraphLink.mk 2 2 ∈ (exampleMap.buildGraph [strA, strB, strC]).Links.elems :=
  buildGraph_self_loop exampleMap [strA, strB, strC] 2 (by decide)

/-- C7: for two distinct node indices `i ≠ j` whose keys have different
values, the graph contains at most one of the links `(i, j)` and `(j, i)`, and
when it contains `(i, j)` the value of node `i`'s key contains the value of
node `j`'s key as a substring. -/
theorem buildGraph_one_direction (values : ValuesMap) (order : List Key) (i j : Nat)
    (ni nj : GraphNode)
    (hi : (values.buildGraph order).Nodes.elems[i]? = some ni)
    (hj : (values.buildGraph order).Nodes.elems[j]? = some nj)
    (_hij : i ≠ j) (hv : values.index ni.Name ≠ values.index nj.Name) :
    ¬ (GraphLink.mk (i : Int) (j : Int) ∈ (values.buildGraph order).Links.elems ∧
       GraphLink.mk (j : Int) (i : Int) ∈ (values.buildGraph order).Links.elems) ∧
    (GraphLink.mk (i : Int) (j : Int) ∈ (values.buildGraph order).Links.elems →
      values.index nj.Name <:+: values.index ni.Name) := by
  have hij' := (link_mem_iff values order i j ni nj hi hj).trans (emitsLink_iff_substring values ni nj)
  have hji' := (link_mem_iff values order j i nj ni hj hi).trans (emitsLink_iff_substring values nj ni)
  refine ⟨fun h => hv ?_, hij'.mp⟩
  exact substring_antisymm (hji'.mp h.2) (hij'.mp h.1)

/-- Witness for C7 on `{"a": "hello", "b": "hello world", "c": "bye"}` visited
in the order `a, b, c`, at the indices `1` (node `b`) and `0` (node `a`). -/
theorem buildGraph_one_direction_witness :
    GraphLink.mk 1 0 ∈ (exampleMap.buildGraph [strA, strB, strC]).Links.elems ∧
    GraphLink.mk 0 1 ∉ (exampleMap.buildGraph [strA, strB, strC]).Links.elems ∧
    exampleMap.index strA <:+: exampleMap.index strB :=
  have h := buildGraph_one_direction exampleMap [strA, strB, strC] 1 0
    (GraphNode.mk strB) (GraphNode.mk strA) (by decide) (by decide) (by decide) (by decide)
  ⟨by decide, fun h01 => h.1 ⟨by decide, h01⟩, h.2 (by decide)⟩

theorem rangePairs_eq {α : Type} (s : Slice α) :
    s.rangePairs = s.elems.enum.map (fun p => ((p.1 : Int), p.2)) := rfl

theorem collectNodes_injective (o1 o2 : List Key)
    (h : collectNodes o1 = collectNodes o2) : o1 = o2 := by
  have h' : (collectNodes o1).elems = (collectNodes o2).elems := by rw [h]
  rw [collectNodes_elems, collectNodes_elems] at h'
  exact List.map_injective_iff.mpr (fun a b hab => by cases hab; rfl) h'

/-- C8 (counterexample): the mapping `{"a": "hello", "b": "hello world",
"c": "bye"}` may be visited in the order `a, b, c` and in the order `b, a, c`,
and the two builds differ in both `Nodes` and `Links`. -/
theorem buildGraph_order_dependent :
    exampleMap.IsRangeOrder [strA, strB, strC] ∧
    exampleMap.IsRangeOrder [strB, strA, strC] ∧
    (exampleMap.buildGraph [strA, strB, strC]).Nodes ≠
      (exampleMap.buildGraph [strB, strA, strC]).Nodes ∧
    (exampleMap.buildGraph [strA, strB, strC]).Links ≠
      (exampleMap.buildGraph [strB, strA, strC]).Links := by
  decide

/-- C8 (amended): the node sequence is the sequence of keys in the order
`range` visits them, so two builds of one mapping have the same `Nodes` exactly
when the keys were visited in the same order, and whenever they have the same
`Nodes` they have the same `Links`. -/
theorem buildGraph_deterministic_in_order (values : ValuesMap) (o1 o2 : List Key)
    (_h1 : values.IsRangeOrder o1) (_h2 : values.IsRangeOrder o2) :
    (values.buildGraph o1).Nodes.elems = o1.map GraphNode.mk ∧
    ((values.buildGraph o1).Nodes = (values.buildGraph o2).Nodes ↔ o1 = o2) ∧
    ((values.buildGraph o1).Nodes = (values.buildGraph o2).Nodes →
      (values.buildGraph o1).Links = (values.buildGraph o2).Links) := by
  refine ⟨buildGraph_nodes values o1, ⟨fun h => collectNodes_injective o1 o2 h, ?_⟩, ?_⟩
  · intro h
    rw [h]
  · intro h
    have := collectNodes_injective o1 o2 h
    rw [this]

/-- Witness for C8 (amended) on `{"a": "hello", "b": "hello world", "c": "bye"}`
visited twice in the order `b, a, c`. -/
theorem buildGraph_deterministic_in_order_witness :
    exampleMap.IsRangeOrder [strB, strA, strC] ∧
    (exampleMap.buildGraph [strB, strA, strC]).Nodes.elems =
      [GraphNode.mk strB, GraphNode.mk strA, GraphNode.mk strC] ∧
    (exampleMap.buildGraph [strB, strA, strC]).Links =
      (exampleMap.buildGraph [strB, strA, strC]).Links :=
  have h := buildGraph_deterministic_in_order exampleMap [strB, strA, strC]
    [strB, strA, strC] (by decide) (by decide)
  ⟨by decide, h.1, h.2.2 rfl⟩

/-- C9 (counterexample): the mapping `{"a": "hello", "b": "hello world",
"c": "bye"}` may be visited in the order `b, a, c`; the nodes are then
`[b, a, c]`, not `[a, b, c]`, and the links hold `(0, 1)` and not `(1, 0)`. -/
theorem buildGraph_example_other_order :
    exampleMap.IsRangeOrder [strB, strA, strC] ∧
    (exampleMap.buildGraph [strB, strA, strC]).Nodes.elems ≠
      [GraphNode.mk strA, GraphNode.mk strB, GraphNode.mk strC] ∧
    GraphLink.mk 1 0 ∉ (exampleMap.buildGraph [strB, strA, strC]).Links.elems ∧
    GraphLink.mk 0 1 ∈ (exampleMap.buildGraph [strB, strA, strC]).Links.elems := by
  decide

/-- C9 (amended): for the mapping `{"a": "hello", "b": "hello world",
"c": "bye"}` the nodes are the keys in the order `range` visits them, and the
links are, up to their order, the three self-loops plus the one link from the
index of `b` to the index of `a`; when the keys are visited in the order
`a, b, c` the nodes are `[a, b, c]` and the links are `(0,0), (1,0), (1,1),
(2,2)`. -/
theorem buildGraph_example (order : List Key) (h : exampleMap.IsRangeOrder order) :
    (exampleMap.buildGraph order).Nodes.elems = order.map GraphNode.mk ∧
    (exampleMap.buildGraph order).Links.elems.Perm
      [GraphLink.mk 0 0, GraphLink.mk 1 1, GraphLink.mk 2 2,
        GraphLink.mk (order.indexOf strB : Nat) (order.indexOf strA : Nat)] ∧
    (order = [strA, strB, strC] →
      (exampleMap.buildGraph order).Nodes.elems =
        [GraphNode.mk strA, GraphNode.mk strB, GraphNode.mk strC] ∧
      (exampleMap.buildGraph order).Links.elems =
        [GraphLink.mk 0 0, GraphLink.mk 1 0, GraphLink.mk 1 1, GraphLink.mk 2 2]) := by
  refine ⟨buildGraph_nodes exampleMap order, ?_, ?_⟩
  · have hmem : order ∈ (List.permutations' exampleMap.keys) := List.mem_permutations'.mpr h
    have hall : ∀ o ∈ List.permutations' exampleMap.keys,
        (exampleMap.buildGraph o).Links.elems.Perm
          [GraphLink.mk 0 0, GraphLink.mk 1 1, GraphLink.mk 2 2,
            GraphLink.mk (o.indexOf strB : Nat) (o.indexOf strA : Nat)] := by
      decide
    exact hall order hmem
  · rintro rfl
    exact ⟨by decide, by decide⟩

/-- Witness for C9 (amended) at the order `c, b, a`. -/
theorem buildGraph_example_witness :
    exampleMap.IsRangeOrder [strC, strB, strA] ∧
    (exampleMap.buildGraph [strC, strB, strA]).Links.elems.Perm
      [GraphLink.mk 0 0, GraphLink.mk 1 1, GraphLink.mk 2 2, GraphLink.mk 1 2] :=
  ⟨by decide, (buildGraph_example [strC, strB, strA] (by decide)).2.1⟩

/-- C10: for a mapping with exactly two keys whose values are identical,
`buildGraph` returns exactly four links: the self-loops `(0,0)` and `(1,1)` and
both cross links `(0,1)` and `(1,0)`. -/
theorem buildGraph_two_equal_values (values : ValuesMap) (order : List Key)
    (h : values.IsRangeOrder order) (hlen : values.len = 2)
    (heq : ∀ k1 ∈ values.keys, ∀ k2 ∈ values.keys, values.index k1 = values.index k2) :
    (values.buildGraph order).Links.elems =
      [GraphLink.mk 0 0, GraphLink.mk 0 1, GraphLink.mk 1 0, GraphLink.mk 1 1] := by
  have hperm : order.Perm values.keys := h
  have hl : order.length = 2 := by
    rw [hperm.length_eq]
    simpa [ValuesMap.keys, ValuesMap.len] using hlen
  obtain ⟨x, y, rfl⟩ := List.length_eq_two.mp hl
  have hx : x ∈ values.keys := hperm.mem_iff.mp (by simp)
  have hy : y ∈ values.keys := hperm.mem_iff.mp (by simp)
  have e : ∀ k1 ∈ values.keys, ∀ k2 ∈ values.keys,
      emitsLink values (GraphNode.mk k1) (GraphNode.mk k2) = true := by
    intro k1 h1 k2 h2
    rw [emitsLink_iff_substring, heq k1 h1 k2 h2]
  rw [buildGraph_links, rangePairs_eq, buildGraph_nodes]
  simp [linksOf, List.enum, List.enumFrom, e x hx x hx, e x hx y hy, e y hy x hx, e y hy y hy]

/-- Witness for C10 on `{"a": "hello", "b": "hello"}` visited in the order
`b, a`. -/
theorem buildGraph_two_equal_values_witness :
    twinMap.IsRangeOrder [strB, strA] ∧ twinMap.len = 2 ∧
    (twinMap.buildGraph [strB, strA]).Links.elems =
      [GraphLink.mk 0 0, GraphLink.mk 0 1, GraphLink.mk 1 0, GraphLink.mk 1 1] :=
  ⟨by decide, by decide,
    buildGraph_two_equal_values twinMap [strB, strA] (by decide) (by decide)
      (by
        intro k1 h1 k2 h2
        have m : ∀ k ∈ twinMap.keys, twinMap.index k = strHello := by decide
        rw [m k1 h1, m k2 h2])⟩

/-! ## Further facts about the loops -/

theorem slice_of_elems_ne_nil {α : Type} (s : Slice α) (h : s.elems ≠ []) :
    s = Slice.mk s.elems := by
  cases s with
  | nil => exact absurd rfl h
  | mk l => rfl

theorem self_loop_mem (values : ValuesMap) (order : List Key) (i : Nat)
    (hi : i < (values.buildGraph order).Nodes.elems.length) :
    GraphLink.mk (i : Int) (i : Int) ∈ (values.buildGraph order).Links.elems := by
  have hget : (values.buildGraph order).Nodes.elems[i]? =
      some ((values.buildGraph order).Nodes.elems[i]) := List.getElem?_eq_getElem hi
  rw [link_mem_iff values order i i _ _ hget hget, emitsLink_iff]
  exact Or.inl ((findRelation_eq_isEqualTo values _ _).mpr rfl)

theorem buildGraph_of_nil (values : ValuesMap) :
    values.buildGraph [] = FinalGraph.mk Slice.nil Slice.nil := rfl

theorem range_order_of_len_zero (values : ValuesMap) (order : List Key)
    (h : values.IsRangeOrder order) (hlen : values.len = 0) : order = [] := by
  have hperm : order.Perm values.keys := h
  have hl : order.length = 0 := by
    rw [hperm.length_eq]
    simpa [ValuesMap.keys, ValuesMap.len] using hlen
  exact List.length_eq_zero.mp hl

/-! ## Claims C11 to C13 -/

/-- C11: for the empty mapping `buildGraph` returns (the embedding is a total
function, so the call does not fail) a graph whose `Nodes` and `Links` both
have length 0; both are the nil slice. -/
theorem buildGraph_empty_mapping (values : ValuesMap) (order : List Key)
    (h : values.IsRangeOrder order) (hlen : values.len = 0) :
    (values.buildGraph order).Nodes.len = 0 ∧
    (values.buildGraph order).Links.len = 0 ∧
    (values.buildGraph order).Nodes.elems = [] ∧
    (values.buildGraph order).Links.elems = [] := by
  rw [range_order_of_len_zero values order h hlen, buildGraph_of_nil]
  exact ⟨rfl, rfl, rfl, rfl⟩

/-- Witness for C11 on the empty mapping, whose only visit order is the empty
one. -/
theorem buildGraph_empty_mapping_witness :
    emptyMap.IsRangeOrder [] ∧ emptyMap.len = 0 ∧
    (emptyMap.buildGraph []).Nodes.len = 0 ∧
    (emptyMap.buildGraph []).Links.len = 0 :=
  have h := buildGraph_empty_mapping emptyMap [] (by decide) (by decide)
  ⟨by decide, by decide, h.1, h.2.1⟩

/-- C12: comparing a non-empty value against an empty value gives
`LeftDerivedFromRight` when the empty value is on the right and
`RightDerivedFromLeft` when it is on the left; two empty values give
`IsEqualTo`; a key absent from the mapping reads as the empty value. -/
theorem findRelation_empty_value (raw : ValuesMap) (k1 k2 : Key) :
    (raw.index k1 ≠ [] → raw.index k2 = [] →
      raw.findRelation k1 k2 = Relation.LeftDerivedFromRight ∧
      raw.findRelation k2 k1 = Relation.RightDerivedFromLeft) ∧
    (raw.index k1 = [] → raw.index k2 = [] →
      raw.findRelation k1 k2 = Relation.IsEqualTo) ∧
    (raw.lookup k1 = none → raw.index k1 = []) := by
  refine ⟨fun h1 h2 => ⟨?_, ?_⟩, fun h1 h2 => ?_, fun h => ?_⟩
  · rw [findRelation_eq_left, h2]
    exact ⟨h1, List.nil_infix⟩
  · rw [findRelation_eq_right, h2]
    refine ⟨fun hinf => h1 ?_, List.nil_infix⟩
    exact List.eq_nil_of_infix_nil hinf
  · rw [findRelation_eq_isEqualTo, h1, h2]
  · unfold ValuesMap.index
    rw [h]
    rfl

/-- Witness for C12 on `{"a": "hello", "b": "hello world", "c": "bye"}` with the
present key `a` and the absent key `hello`, which reads as the empty value. -/
theorem findRelation_empty_value_witness :
    exampleMap.index strA ≠ [] ∧ exampleMap.lookup strHello = none ∧
    exampleMap.index strHello = [] ∧
    exampleMap.findRelation strA strHello = Relation.LeftDerivedFromRight ∧
    exampleMap.findRelation strHello strA = Relation.RightDerivedFromLeft :=
  have h := findRelation_empty_value exampleMap strA strHello
  ⟨by decide, by decide, (findRelation_empty_value exampleMap strHello strA).2.2 (by decide),
    h.1 (by decide) (by decide)⟩

/-- C13: for every mapping and every two keys, present or not, `findRelation`
returns (it is a total function) one of `Unrelated`, `LeftDerivedFromRight`,
`RightDerivedFromLeft`, `IsEqualTo`, and never the zero value `Unknown`. -/
theorem findRelation_defined (raw : ValuesMap) (k1 k2 : Key) :
    raw.findRelation k1 k2 ≠ Relation.Unknown ∧
    (raw.findRelation k1 k2 = Relation.Unrelated ∨
      raw.findRelation k1 k2 = Relation.LeftDerivedFromRight ∨
      raw.findRelation k1 k2 = Relation.RightDerivedFromLeft ∨
      raw.findRelation k1 k2 = Relation.IsEqualTo) := by
  simp only [ValuesMap.findRelation]
  split_ifs <;> simp

/-! ## Claims C16, C18, C19 -/

/-- C16: swapping the two keys mirrors the result of `findRelation`:
`LeftDerivedFromRight` one way is `RightDerivedFromLeft` the other way, and
`IsEqualTo` and `Unrelated` are each kept. -/
theorem findRelation_swap (raw : ValuesMap) (k1 k2 : Key) :
    (raw.findRelation k1 k2 = Relation.LeftDerivedFromRight ↔
      raw.findRelation k2 k1 = Relation.RightDerivedFromLeft) ∧
    (raw.findRelation k1 k2 = Relation.IsEqualTo ↔
      raw.findRelation k2 k1 = Relation.IsEqualTo) ∧
    (raw.findRelation k1 k2 = Relation.Unrelated ↔
      raw.findRelation k2 k1 = Relation.Unrelated) := by
  refine ⟨?_, ?_, ?_⟩
  · rw [findRelation_eq_left, findRelation_eq_right]
    constructor
    · rintro ⟨hne, hinf⟩
      exact ⟨fun h => hne (substring_antisymm h hinf), hinf⟩
    · rintro ⟨hn, hinf⟩
      refine ⟨fun h => hn ?_, hinf⟩
      rw [h]
  · rw [findRelation_eq_isEqualTo, findRelation_eq_isEqualTo]
    exact eq_comm
  · rw [findRelation_eq_unrelated, findRelation_eq_unrelated]
    exact and_comm

/-- C19: every link of the graph `buildGraph` returns refers to existing nodes:
`0 <= Source < len(Nodes)` and `0 <= Target < len(Nodes)`. -/
theorem buildGraph_links_in_range (values : ValuesMap) (order : List Key) (l : GraphLink)
    (hl : l ∈ (values.buildGraph order).Links.elems) :
    0 ≤ l.Source ∧ l.Source < (values.buildGraph order).Nodes.len ∧
    0 ≤ l.Target ∧ l.Target < (values.buildGraph order).Nodes.len := by
  obtain ⟨i, j, ni, nj, hi, hj, _, rfl⟩ := (mem_links_iff values order l).mp hl
  have hi' : i < (values.buildGraph order).Nodes.elems.length :=
    (List.getElem?_eq_some_iff.mp hi).1
  have hj' : j < (values.buildGraph order).Nodes.elems.length :=
    (List.getElem?_eq_some_iff.mp hj).1
  unfold Slice.len
  exact ⟨Int.ofNat_nonneg i, Int.ofNat_lt.mpr hi', Int.ofNat_nonneg j, Int.ofNat_lt.mpr hj'⟩

/-- Witness for C19 on `{"a": "hello", "b": "hello world", "c": "bye"}` visited
in the order `a, b, c`, at the link `(1, 0)`. -/
theorem buildGraph_links_in_range_witness :
    GraphLink.mk 1 0 ∈ (exampleMap.buildGraph [strA, strB, strC]).Links.elems ∧
    (1 : Int) < (exampleMap.buildGraph [strA, strB, strC]).Nodes.len :=
  ⟨by decide,
    (buildGraph_links_in_range exampleMap [strA, strB, strC] (GraphLink.mk 1 0)
      (by decide)).2.1⟩

/-- C18: the link relation of the graph `buildGraph` returns is reflexive on
the node indices and transitive: with `(a, b)` and `(b, c)` in `Links`, also
`(a, c)` is in `Links`; so the links form a preorder on the nodes. -/
theorem buildGraph_links_preorder (values : ValuesMap) (order : List Key) :
    (∀ i : Nat, i < (values.buildGraph order).Nodes.elems.length →
      GraphLink.mk (i : Int) (i : Int) ∈ (values.buildGraph order).Links.elems) ∧
    (∀ a b c : Int,
      GraphLink.mk a b ∈ (values.buildGraph order).Links.elems →
      GraphLink.mk b c ∈ (values.buildGraph order).Links.elems →
      GraphLink.mk a c ∈ (values.buildGraph order).Links.elems) := by
  refine ⟨fun i hi => self_loop_mem values order i hi, ?_⟩
  intro a b c hab hbc
  obtain ⟨i, j, ni, nj, hi, hj, he1, heq1⟩ := (mem_links_iff values order _).mp hab
  obtain ⟨j', k, nj', nk, hj', hk, he2, heq2⟩ := (mem_links_iff values order _).mp hbc
  simp only [GraphLink.mk.injEq] at heq1 heq2
  obtain ⟨rfl, rfl⟩ := heq1
  obtain ⟨hjj, rfl⟩ := heq2
  have hjj' : j = j' := Int.ofNat_inj.mp hjj
  subst hjj'
  rw [hj] at hj'
  cases hj'
  rw [link_mem_iff values order i k ni nk hi hk, emitsLink_iff_substring]
  rw [emitsLink_iff_substring] at he1 he2
  exact he2.trans he1

/-- Witness for C18 on `{"a": "hello", "b": "hello world", "c": "bye"}` visited
in the order `a, b, c`: from `(1, 1)` and `(1, 0)` to `(1, 0)`, and the
self-loop at index `2`. -/
theorem buildGraph_links_preorder_witness :
    GraphLink.mk 2 2 ∈ (exampleMap.buildGraph [strA, strB, strC]).Links.elems ∧
    GraphLink.mk 1 0 ∈ (exampleMap.buildGraph [strA, strB, strC]).Links.elems :=
  have h := buildGraph_links_preorder exampleMap [strA, strB, strC]
  ⟨h.1 2 (by decide), h.2 1 1 0 (by decide) (by decide)⟩

/-! ## Claims C17 and C20 -/

theorem nodes_nodup_of_range_order (values : ValuesMap) (order : List Key)
    (h : values.IsRangeOrder order) : (values.buildGraph order).Nodes.elems.Nodup := by
  have hperm : order.Perm values.keys := h
  have hnd : order.Nodup := hperm.nodup_iff.mpr values.nodup
  rw [buildGraph_nodes]
  exact hnd.map (fun a b hab => by cases hab; rfl)

theorem mem_nodes_of_range_orders (values : ValuesMap) (o1 o2 : List Key)
    (h1 : values.IsRangeOrder o1) (h2 : values.IsRangeOrder o2) (n : GraphNode)
    (hn : n ∈ (values.buildGraph o1).Nodes.elems) :
    n ∈ (values.buildGraph o2).Nodes.elems := by
  have hp1 : o1.Perm values.keys := h1
  have hp2 : o2.Perm values.keys := h2
  rw [buildGraph_nodes] at hn ⊢
  obtain ⟨k, hk, rfl⟩ := List.mem_map.mp hn
  exact List.mem_map.mpr ⟨k, hp2.mem_iff.mpr (hp1.mem_iff.mp hk), rfl⟩

/-- C17: for two visit orders `o1`, `o2` of the same mapping, every node of one
graph occurs at exactly one index of the other (the renumbering that matches
equal key names), and that renumbering carries the links of one graph exactly
onto the links of the other: `(i, j)` is a link of the first graph exactly when
`(i', j')` is a link of the second, where `i'`, `j'` hold the same nodes as
`i`, `j`. -/
theorem buildGraph_renumbering (values : ValuesMap) (o1 o2 : List Key)
    (h1 : values.IsRangeOrder o1) (h2 : values.IsRangeOrder o2) :
    (∀ (i : Nat) (n : GraphNode), (values.buildGraph o1).Nodes.elems[i]? = some n →
      ∃! i' : Nat, (values.buildGraph o2).Nodes.elems[i']? = some n) ∧
    (∀ (i j i' j' : Nat) (ni nj : GraphNode),
      (values.buildGraph o1).Nodes.elems[i]? = some ni →
      (values.buildGraph o1).Nodes.elems[j]? = some nj →
      (values.buildGraph o2).Nodes.elems[i']? = some ni →
      (values.buildGraph o2).Nodes.elems[j']? = some nj →
      (GraphLink.mk (i : Int) (j : Int) ∈ (values.buildGraph o1).Links.elems ↔
        GraphLink.mk (i' : Int) (j' : Int) ∈ (values.buildGraph o2).Links.elems)) := by
  constructor
  · intro i n hi
    have hmem : n ∈ (values.buildGraph o1).Nodes.elems := List.mem_iff_getElem?.mpr ⟨i, hi⟩
    obtain ⟨i', hi'⟩ := List.mem_iff_getElem?.mp
      (mem_nodes_of_range_orders values o1 o2 h1 h2 n hmem)
    refine ⟨i', hi', fun k hk => ?_⟩
    have hk' : k < (values.buildGraph o2).Nodes.elems.length :=
      (List.getElem?_eq_some_iff.mp hk).1
    exact List.getElem?_inj hk' (nodes_nodup_of_range_order values o2 h2) (hk.trans hi'.symm)
  · intro i j i' j' ni nj hi hj hi' hj'
    rw [link_mem_iff values o1 i j ni nj hi hj, link_mem_iff values o2 i' j' ni nj hi' hj']

/-- Witness for C17 on `{"a": "hello", "b": "hello world", "c": "bye"}` visited
in the orders `a, b, c` and `c, b, a`: the link `(1, 0)` from `b` to `a` of the
first graph is the link `(1, 2)` of the second. -/
theorem buildGraph_renumbering_witness :
    exampleMap.IsRangeOrder [strA, strB, strC] ∧
    exampleMap.IsRangeOrder [strC, strB, strA] ∧
    GraphLink.mk 1 0 ∈ (exampleMap.buildGraph [strA, strB, strC]).Links.elems ∧
    GraphLink.mk 1 2 ∈ (exampleMap.buildGraph [strC, strB, strA]).Links.elems :=
  have h := buildGraph_renumbering exampleMap [strA, strB, strC] [strC, strB, strA]
    (by decide) (by decide)
  ⟨by decide, by decide, by decide,
    (h.2 1 0 1 2 (GraphNode.mk strB) (GraphNode.mk strA)
      (by decide) (by decide) (by decide) (by decide)).mp (by decide)⟩

theorem emitsLink_self (values : ValuesMap) (n : GraphNode) :
    emitsLink values n n = true :=
  (emitsLink_iff_substring values n n).mpr List.infix_rfl

theorem rangePairs_pairwise {α : Type} (s : Slice α) :
    s.rangePairs.Pairwise (fun p q => p.1 < q.1) := by
  unfold Slice.rangePairs
  rw [List.pairwise_map]
  have h : (s.elems.enum.map Prod.fst).Pairwise (fun a b => a < b) := by
    rw [List.enum_map_fst]
    exact List.pairwise_lt_range _
  rw [List.pairwise_map] at h
  exact h.imp (fun hab => Int.ofNat_lt.mpr hab)

theorem rangePairs_length {α : Type} (s : Slice α) :
    s.rangePairs.length = s.elems.length := by
  simp [Slice.rangePairs]

theorem links_pairwise (values : ValuesMap) (ps qs : List (Int × GraphNode))
    (hps : ps.Pairwise (fun p q => p.1 < q.1)) (hqs : qs.Pairwise (fun p q => p.1 < q.1)) :
    (qs.flatMap (fun p1 =>
      (ps.filter (fun p2 => emitsLink values p1.2 p2.2)).map
        (fun p2 => GraphLink.mk p1.1 p2.1))).Pairwise linkLess := by
  rw [List.pairwise_flatMap]
  constructor
  · intro p1 _
    rw [List.pairwise_map]
    exact (hps.filter _).imp (fun hab => Or.inr ⟨rfl, hab⟩)
  · refine hqs.imp ?_
    intro a b hab x hx y hy
    obtain ⟨_, _, rfl⟩ := List.mem_map.mp hx
    obtain ⟨_, _, rfl⟩ := List.mem_map.mp hy
    exact Or.inl hab

theorem links_length_bounds (values : ValuesMap) (ps qs : List (Int × GraphNode))
    (hsub : ∀ q ∈ qs, q ∈ ps) :
    qs.length ≤ (qs.flatMap (fun p1 =>
      (ps.filter (fun p2 => emitsLink values p1.2 p2.2)).map
        (fun p2 => GraphLink.mk p1.1 p2.1))).length ∧
    (qs.flatMap (fun p1 =>
      (ps.filter (fun p2 => emitsLink values p1.2 p2.2)).map
        (fun p2 => GraphLink.mk p1.1 p2.1))).length ≤ qs.length * ps.length := by
  induction qs with
  | nil => simp
  | cons q rest ih =>
    have hrest := ih (fun x hx => hsub x (List.mem_cons_of_mem _ hx))
    have hq : q ∈ ps.filter (fun p2 => emitsLink values q.2 p2.2) :=
      List.mem_filter.mpr ⟨hsub q (List.mem_cons_self _ _), emitsLink_self values q.2⟩
    have hlo : 1 ≤ (ps.filter (fun p2 => emitsLink values q.2 p2.2)).length :=
      List.length_pos_of_mem hq
    have hhi : (ps.filter (fun p2 => emitsLink values q.2 p2.2)).length ≤ ps.length :=
      List.length_filter_le _ _
    rw [List.flatMap_cons, List.length_append, List.length_map, List.length_cons]
    constructor
    · omega
    · rw [Nat.succ_mul]
      omega

/-- C20: the `Links` sequence `buildGraph` returns is strictly increasing in the
lexicographic order on `(Source, Target)`; hence no link appears twice, and
`len(Nodes) <= len(Links) <= len(Nodes)^2`. -/
theorem buildGraph_links_increasing (values : ValuesMap) (order : List Key) :
    (values.buildGraph order).Links.elems.Pairwise linkLess ∧
    (values.buildGraph order).Links.elems.Nodup ∧
    (values.buildGraph order).Nodes.elems.length ≤
      (values.buildGraph order).Links.elems.length ∧
    (values.buildGraph order).Links.elems.length ≤
      (values.buildGraph order).Nodes.elems.length ^ 2 := by
  have hpw : (values.buildGraph order).Links.elems.Pairwise linkLess := by
    rw [buildGraph_links]
    exact links_pairwise values _ _ (rangePairs_pairwise _) (rangePairs_pairwise _)
  have hlen := links_length_bounds values (values.buildGraph order).Nodes.rangePairs
    (values.buildGraph order).Nodes.rangePairs (fun _ hq => hq)
  rw [rangePairs_length] at hlen
  refine ⟨hpw, ?_, ?_, ?_⟩
  · refine hpw.imp ?_
    intro a b hab heq
    subst heq
    rcases hab with h | ⟨_, h⟩
    · exact lt_irrefl _ h
    · exact lt_irrefl _ h
  · rw [buildGraph_links]
    exact hlen.1
  · rw [buildGraph_links, sq]
    exact hlen.2

/-! ## The JSON encoding -/

theorem toValidUTF8From_of_valid (s : GoString) (pending : Nat)
    (h : validFrom pending s = true) : toValidUTF8From pending s = s := by
  induction s generalizing pending with
  | nil => cases pending <;> rfl
  | cons b rest ih =>
    cases pending with
    | succ k =>
      simp only [validFrom] at h
      simp only [toValidUTF8From, ih k h]
    | zero =>
      simp only [validFrom] at h
      simp only [toValidUTF8From]
      cases hw : decodeRuneWidth (b :: rest) with
      | none => simp [hw] at h
      | some n =>
        simp only [hw] at h
        simp only [ih (n - 1) h]

theorem toValidUTF8_of_valid (s : GoString) (h : ValidString s = true) :
    toValidUTF8 s = s :=
  toValidUTF8From_of_valid s 0 h

theorem marshalSlice_of_ne_nil {α : Type} (f : α → Json) (s : Slice α)
    (h : s.elems ≠ []) : marshalSlice f s = Json.array (s.elems.map f) := by
  cases s with
  | nil => exact absurd rfl h
  | mk l => rfl

/-! ## Claims C14 and C15 -/

/-- C14 (counterexample): for the empty mapping both slices of the graph are
nil, and `json.Marshal` writes `null` for a nil slice: the members `nodes` and
`links` of the encoding are `null`, not arrays. -/
theorem marshal_empty_mapping :
    emptyMap.IsRangeOrder [] ∧
    marshalFinalGraph (emptyMap.buildGraph []) =
      Json.object [("nodes", Json.null), ("links", Json.null)] ∧
    ((marshalFinalGraph (emptyMap.buildGraph [])).member "nodes").map Json.isArray =
      some false ∧
    ((marshalFinalGraph (emptyMap.buildGraph [])).member "links").map Json.isArray =
      some false :=
  ⟨by decide, rfl, by decide, by decide⟩

/-- C14 (amended): for a non-empty mapping the JSON encoding of the graph is an
object with the two members `nodes`, the array of the objects `name: string`
in node-index order, and `links`, the array of the objects `source: int,
target: int`; for the empty mapping both members are `null`. -/
theorem marshal_shape (values : ValuesMap) (order : List Key)
    (h : values.IsRangeOrder order) :
    (values.len ≠ 0 →
      marshalFinalGraph (values.buildGraph order) =
        Json.object
          [("nodes", Json.array
            (order.map (fun k => Json.object [("name", Json.string (toValidUTF8 k))]))),
           ("links", Json.array
            ((values.buildGraph order).Links.elems.map (fun l =>
              Json.object [("source", Json.number l.Source),
                ("target", Json.number l.Target)])))]) ∧
    (values.len = 0 →
      marshalFinalGraph (values.buildGraph order) =
        Json.object [("nodes", Json.null), ("links", Json.null)]) := by
  constructor
  · intro hlen
    have hperm : order.Perm values.keys := h
    have hne : order ≠ [] := by
      intro he
      apply hlen
      have := hperm.length_eq
      rw [he] at this
      simpa [ValuesMap.keys, ValuesMap.len] using this.symm
    have hpos : 0 < (values.buildGraph order).Nodes.elems.length := by
      rw [buildGraph_nodes, List.length_map]
      exact List.length_pos.mpr hne
    have hnodes : (values.buildGraph order).Nodes.elems ≠ [] := List.length_pos.mp hpos
    have hlinks : (values.buildGraph order).Links.elems ≠ [] :=
      List.ne_nil_of_mem (self_loop_mem values order 0 hpos)
    unfold marshalFinalGraph
    rw [marshalSlice_of_ne_nil _ _ hnodes, marshalSlice_of_ne_nil _ _ hlinks,
      buildGraph_nodes, List.map_map]
    rfl
  · intro hlen
    rw [range_order_of_len_zero values order h hlen]
    rfl

/-- Witness for C14 (amended) on `{"a": "hello", "b": "hello world",
"c": "bye"}` visited in the order `a, b, c`. -/
theorem marshal_shape_witness :
    exampleMap.IsRangeOrder [strA, strB, strC] ∧ exampleMap.len ≠ 0 ∧
    ((marshalFinalGraph (exampleMap.buildGraph [strA, strB, strC])).member "nodes").map
      Json.isArray = some true := by
  refine ⟨by decide, by decide, ?_⟩
  rw [(marshal_shape exampleMap [strA, strB, strC] (by decide)).1 (by decide)]
  rfl

/-! ## Decoding what was encoded -/

theorem decodeRuneWidth_copy (b : UInt8) (rest : GoString) (n : Nat)
    (h : decodeRuneWidth (b :: rest) = some n) :
    decodeRuneWidth (b :: toValidUTF8From (n - 1) rest) = some n := by
  rcases rest with _ | ⟨b1, _ | ⟨b2, _ | ⟨b3, r⟩⟩⟩ <;>
    simp only [decodeRuneWidth] at h <;>
    split_ifs at h <;>
    (try simp only [Option.some.injEq, reduceCtorEq] at h) <;>
    (try subst h) <;>
    simp [decodeRuneWidth, toValidUTF8From, *]

theorem decodeRuneWidth_replacement (rest : GoString) :
    decodeRuneWidth (0xEF :: 0xBF :: 0xBD :: rest) = some 3 := by
  simp only [decodeRuneWidth]
  rfl

theorem validFrom_toValidUTF8From (s : GoString) (pending : Nat) :
    validFrom pending (toValidUTF8From pending s) = true := by
  induction s generalizing pending with
  | nil => cases pending <;> rfl
  | cons b rest ih =>
    cases pending with
    | succ k =>
      simp only [toValidUTF8From, validFrom]
      exact ih k
    | zero =>
      simp only [toValidUTF8From]
      cases hw : decodeRuneWidth (b :: rest) with
      | none =>
        simp only [replacementRune, List.cons_append, List.nil_append, validFrom,
          decodeRuneWidth_replacement]
        exact ih 0
      | some n =>
        simp only [validFrom, decodeRuneWidth_copy b rest n hw]
        exact ih (n - 1)

theorem toValidUTF8_idem (s : GoString) : toValidUTF8 (toValidUTF8 s) = toValidUTF8 s :=
  toValidUTF8_of_valid _ (validFrom_toValidUTF8From s 0)

theorem unmarshal_marshal_node (n : GraphNode) :
    unmarshalGraphNode (GraphNode.mk []) (marshalGraphNode n) = some (coerceNode n) := by
  have hm : matchesField "name" "name" = true := by decide
  simp [unmarshalGraphNode, marshalGraphNode, unmarshalString, List.foldlM, hm, coerceNode,
    toValidUTF8_idem]

theorem unmarshal_marshal_link (l : GraphLink) (hs : fitsInt l.Source)
    (ht : fitsInt l.Target) :
    unmarshalGraphLink (GraphLink.mk 0 0) (marshalGraphLink l) = some l := by
  have h1 : matchesField "source" "source" = true := by decide
  have h2 : matchesField "source" "target" = false := by decide
  have h3 : matchesField "target" "target" = true := by decide
  simp [unmarshalGraphLink, marshalGraphLink, unmarshalInt, List.foldlM, h1, h2, h3, hs, ht]

theorem unmarshalItems_map {α : Type} (f : α → Json → Option α) (zero : α)
    (g : α → Json) (r : α → α) (l : List α)
    (h : ∀ x ∈ l, f zero (g x) = some (r x)) :
    unmarshalItems f zero [] (l.map g) = some (l.map r) := by
  induction l with
  | nil => rfl
  | cons a rest ih =>
    simp only [List.map_cons, unmarshalItems, List.headD_nil, List.tail_nil,
      h a (List.mem_cons_self _ _), ih (fun x hx => h x (List.mem_cons_of_mem _ hx))]

theorem unmarshal_marshal_slice {α : Type} (f : α → Json → Option α) (zero : α)
    (g : α → Json) (r : α → α) (s : Slice α)
    (h : ∀ x ∈ s.elems, f zero (g x) = some (r x)) :
    (unmarshalSlice f zero (SliceTarget.mk Slice.nil []) (marshalSlice g s)).map
      SliceTarget.value = some (s.map r) := by
  cases s with
  | nil => rfl
  | mk l =>
    cases l with
    | nil => rfl
    | cons a rest =>
      have := unmarshalItems_map f zero g r (a :: rest) h
      simp only [List.map_cons] at this
      simp only [marshalSlice, List.map_cons, unmarshalSlice, this, Option.map_some',
        Slice.map]

theorem unmarshal_marshal_graph (g : FinalGraph)
    (h : ∀ l ∈ g.Links.elems, fitsInt l.Source ∧ fitsInt l.Target) :
    unmarshalFinalGraph (marshalFinalGraph g) =
      some (FinalGraph.mk (g.Nodes.map coerceNode) g.Links) := by
  have hn := unmarshal_marshal_slice unmarshalGraphNode (GraphNode.mk []) marshalGraphNode
    coerceNode g.Nodes (fun n _ => unmarshal_marshal_node n)
  have hl := unmarshal_marshal_slice unmarshalGraphLink (GraphLink.mk 0 0) marshalGraphLink
    id g.Links (fun l hmem => unmarshal_marshal_link l (h l hmem).1 (h l hmem).2)
  have hid : g.Links.map id = g.Links := by
    cases g.Links <;> simp [Slice.map]
  rw [hid] at hl
  have h1 : matchesField "nodes" "nodes" = true := by decide
  have h2 : matchesField "nodes" "links" = false := by decide
  have h3 : matchesField "links" "links" = true := by decide
  cases hN : unmarshalSlice unmarshalGraphNode (GraphNode.mk []) (SliceTarget.mk Slice.nil [])
      (marshalSlice marshalGraphNode g.Nodes) with
  | none => simp [hN] at hn
  | some tn =>
    cases hL : unmarshalSlice unmarshalGraphLink (GraphLink.mk 0 0) (SliceTarget.mk Slice.nil [])
        (marshalSlice marshalGraphLink g.Links) with
    | none => simp [hL] at hl
    | some tl =>
      simp only [hN, Option.map_some', Option.some.injEq] at hn
      simp only [hL, Option.map_some', Option.some.injEq] at hl
      simp [unmarshalFinalGraph, marshalFinalGraph, List.foldlM, unmarshalMember, h1, h2, h3,
        hN, hL, hn, hl]

theorem coerceNode_of_valid (n : GraphNode) (h : ValidString n.Name = true) :
    coerceNode n = n := by
  unfold coerceNode
  rw [toValidUTF8_of_valid n.Name h]

theorem slice_map_eq_self {α : Type} (f : α → α) (s : Slice α)
    (h : ∀ x ∈ s.elems, f x = x) : s.map f = s := by
  cases s with
  | nil => rfl
  | mk l =>
    simp only [Slice.map, Slice.mk.injEq]
    have h' : ∀ x ∈ l, f x = x := h
    calc l.map f = l.map id := List.map_congr_left h'
      _ = l := List.map_id l

theorem slice_map_length {α β : Type} (f : α → β) (s : Slice α) :
    (s.map f).elems.length = s.elems.length := by
  cases s <;> simp [Slice.map, Slice.elems]

theorem links_fit_int (values : ValuesMap) (order : List Key)
    (h : values.IsRangeOrder order) (hsmall : values.len < 2 ^ 63) :
    ∀ l ∈ (values.buildGraph order).Links.elems, fitsInt l.Source ∧ fitsInt l.Target := by
  intro l hl
  have hperm : order.Perm values.keys := h
  have hlen : (values.buildGraph order).Nodes.elems.length = values.len := by
    rw [buildGraph_nodes, List.length_map, hperm.length_eq]
    simp [ValuesMap.keys, ValuesMap.len]
  obtain ⟨i, j, ni, nj, hi, hj, _, rfl⟩ := (mem_links_iff values order l).mp hl
  have hi' : i < 2 ^ 63 := by
    have := (List.getElem?_eq_some_iff.mp hi).1
    omega
  have hj' : j < 2 ^ 63 := by
    have := (List.getElem?_eq_some_iff.mp hj).1
    omega
  have hi'' : (i : Int) < (2 : Int) ^ 63 := by exact_mod_cast hi'
  have hj'' : (j : Int) < (2 : Int) ^ 63 := by exact_mod_cast hj'
  have hneg : -(2 : Int) ^ 63 ≤ 0 := by norm_num
  exact ⟨⟨le_trans hneg (Int.ofNat_nonneg i), hi''⟩, ⟨le_trans hneg (Int.ofNat_nonneg j), hj''⟩⟩

/-- C15 (counterexample): for the mapping with the one key `"\xff"`, which is
not valid UTF-8, encoding the graph and decoding the result gives a node named
U+FFFD, not the node `"\xff"` of the graph. -/
theorem roundtrip_invalid_key :
    binaryKeyMap.IsRangeOrder [[0xFF]] ∧
    (binaryKeyMap.buildGraph [[0xFF]]).Nodes = Slice.mk [GraphNode.mk [0xFF]] ∧
    unmarshalFinalGraph (marshalFinalGraph (binaryKeyMap.buildGraph [[0xFF]])) =
      some (FinalGraph.mk (Slice.mk [GraphNode.mk [0xEF, 0xBF, 0xBD]])
        (Slice.mk [GraphLink.mk 0 0])) ∧
    unmarshalFinalGraph (marshalFinalGraph (binaryKeyMap.buildGraph [[0xFF]])) ≠
      some (binaryKeyMap.buildGraph [[0xFF]]) := by
  decide

/-- C15 (amended): for every mapping (a Go map, whose `len` is an `int`, so
with fewer than `2^63` keys), encoding the graph `buildGraph` returns to JSON
and decoding the result back into a `FinalGraph` succeeds and yields a graph
with the same link sequence and a node sequence of the same length, in which
every node name is the original name coerced to valid UTF-8 (each invalid byte
replaced by U+FFFD); when all keys are valid UTF-8 the graph that comes back is
the graph that went in. -/
theorem roundtrip_spec (values : ValuesMap) (order : List Key)
    (h : values.IsRangeOrder order) (hsmall : values.len < 2 ^ 63) :
    unmarshalFinalGraph (marshalFinalGraph (values.buildGraph order)) =
      some (FinalGraph.mk ((values.buildGraph order).Nodes.map coerceNode)
        (values.buildGraph order).Links) ∧
    ((values.buildGraph order).Nodes.map coerceNode).elems.length =
      (values.buildGraph order).Nodes.elems.length ∧
    ((∀ k ∈ values.keys, ValidString k = true) →
      unmarshalFinalGraph (marshalFinalGraph (values.buildGraph order)) =
        some (values.buildGraph order)) := by
  have hmain := unmarshal_marshal_graph (values.buildGraph order)
    (links_fit_int values order h hsmall)
  refine ⟨hmain, slice_map_length _ _, fun hvalid => ?_⟩
  have hperm : order.Perm values.keys := h
  have hsame : (values.buildGraph order).Nodes.map coerceNode =
      (values.buildGraph order).Nodes := by
    apply slice_map_eq_self
    intro n hn
    rw [buildGraph_nodes] at hn
    obtain ⟨k, hk, rfl⟩ := List.mem_map.mp hn
    exact coerceNode_of_valid _ (hvalid k (hperm.mem_iff.mp hk))
  rw [hmain, hsame]

/-- Witness for C15 (amended) on `{"a": "hello", "b": "hello world",
"c": "bye"}` visited in the order `c, a, b`, whose keys are valid UTF-8. -/
theorem roundtrip_spec_witness :
    exampleMap.IsRangeOrder [strC, strA, strB] ∧ exampleMap.len < 2 ^ 63 ∧
    (∀ k ∈ exampleMap.keys, ValidString k = true) ∧
    unmarshalFinalGraph (marshalFinalGraph (exampleMap.buildGraph [strC, strA, strB])) =
      some (exampleMap.buildGraph [strC, strA, strB]) :=
  ⟨by decide, by decide, by decide,
    (roundtrip_spec exampleMap [strC, strA, strB] (by decide) (by decide)).2.2 (by decide)⟩

end YamlNormal
